import Mathlib

/-!
# Verification of the nanopore squiggle simulator / event decoder

Shallow embedding of the two source notebooks of `vellamike/training_course`:

* the event-based decoder (transition detector, event means, nearest-level
  k-mer decoding, accuracy scoring), and
* the signal simulator (`Pore`, `DWELL`, `NOISE`, `CURRENT_LEVELS`,
  `generate_signal`).

Python floats are modelled by `ℚ`; stochastic draws are modelled by passing
the drawn values explicitly; Python operations that raise are modelled with
`Option` (`none` = the raising path).  Python list slices `l[a:b]` with
non-negative bounds are modelled by `pySlice`, and the negative index
`l[i-1]` at `i = 0` (which in Python reads the *last* element) is modelled
explicitly in `prevRange`.
-/

namespace TrainingCourse

/-- Python `l[a:b]` for non-negative `a ≤ b` (clipped at the end, empty when
`b ≤ a`). -/
def pySlice (l : List ℚ) (a b : ℕ) : List ℚ :=
  (l.drop a).take (b - a)

/-- Python `max(l)` for a nonempty list (the `[]` case is never reached by
the embedded code; Python would raise there). -/
def listMax : List ℚ → ℚ
  | [] => 0
  | a :: as => as.foldl max a

/-- Python `min(l)` for a nonempty list. -/
def listMin : List ℚ → ℚ
  | [] => 0
  | a :: as => as.foldl min a

/-- The constant `0.03` that `transition_detector` assigns over its
`threshold` argument before scanning. -/
def hardThreshold : ℚ := 3 / 100

/-- The list `ranges` built by the first loop of `transition_detector`:
`ranges[i] = max(signal[i:i+w]) - min(signal[i:i+w])` for
`i in range(len(signal)-w+1)` (the Python count `len-w+1` is
`len+1-w` truncated at 0). -/
def sigRanges (signal : List ℚ) (w : ℕ) : List ℚ :=
  (List.range (signal.length + 1 - w)).map fun i =>
    listMax (pySlice signal i (i + w)) - listMin (pySlice signal i (i + w))

/-- Python `ranges[i-1]` inside the scan loop: at `i = 0` the index `-1`
wraps around to the last element of `ranges`. -/
def prevRange (ranges : List ℚ) (i : ℕ) : ℚ :=
  if i = 0 then ranges.getLastD 0 else ranges.getD (i - 1) 0

/-- The window indices `i` at which the scan loop of `transition_detector`
fires: `ranges[i-1] < 0.03 and ranges[i] > 0.03` (the hard-coded `0.03`,
strict inequalities, `i` running from 0 with Python index wrap-around). -/
def detectedIndices (signal : List ℚ) (w : ℕ) : List ℕ :=
  let ranges := sigRanges signal w
  (List.range ranges.length).filter fun i =>
    decide (prevRange ranges i < hardThreshold ∧ hardThreshold < ranges.getD i 0)

/-- `transition_detector(signal, window_size, threshold)`: returns
`(events, ranges)`.  The `threshold` argument is overwritten with `0.03`
before the scan, so it never influences the result.  `events` starts at `0`,
then holds `i + window_size//2` for every firing index `i`, then
`len(signal)`. -/
def transition_detector (signal : List ℚ) (window_size : ℕ) (threshold : ℚ) :
    List ℕ × List ℚ :=
  let _ := threshold
  (0 :: ((detectedIndices signal window_size).map (· + window_size / 2)
      ++ [signal.length]),
   sigRanges signal window_size)

/-- `np.mean` of a Python list slice; `np.mean` of an empty slice is NaN,
modelled as `none`. -/
def npMean (l : List ℚ) : Option ℚ :=
  if l.isEmpty then none else some (l.sum / l.length)

/-- `extract_event_means(signal, events)`: for each `i in range(len(events)-1)`,
the mean of `signal[start:end]` with `start = 0 if i == 0 else events[i]+1`
and `end = events[i+1]`. -/
def extract_event_means (signal : List ℚ) (events : List ℕ) : List (Option ℚ) :=
  (List.range (events.length - 1)).map fun i =>
    let start_idx := if i = 0 then 0 else events.getD i 0 + 1
    let end_idx := events.getD (i + 1) 0
    npMean (pySlice signal start_idx end_idx)

/-- `euclidian_distance(x, y) = np.abs((x-y)**2)**0.5`, which equals
`|x - y|`. -/
def euclidian_distance (x y : ℚ) : ℚ := |x - y|

/-- Helper for `np.argmin`: fold over the remaining list keeping the first
index attaining the strictly smallest value seen so far. -/
def argminAux : List ℚ → ℕ → ℚ → ℕ → ℕ
  | [], _, _, best => best
  | a :: as, idx, bestVal, best =>
      if a < bestVal then argminAux as (idx + 1) a idx
      else argminAux as (idx + 1) bestVal best

/-- `np.argmin` on a list: index of the first occurrence of the minimum
(0 on the empty list, where numpy raises). -/
def argmin : List ℚ → ℕ
  | [] => 0
  | a :: as => argminAux as 1 a 0

/-- One decoding step of the notebook: for an event mean `m`, the distances
`euclidian_distance(m, kmer_levels)`, their `argmin`, the k-mer
`kmer_keys[argmin]`, and its first character `kmer[0]`. -/
def decodeMean (kmer_keys : List (List Char)) (kmer_levels : List ℚ) (m : ℚ) :
    Char :=
  let dists := kmer_levels.map fun lv => euclidian_distance m lv
  ((kmer_keys.getD (argmin dists) []).headD 'A')

/-- `final_sequence`: the per-event first symbols, concatenated. -/
def decodeMeans (kmer_keys : List (List Char)) (kmer_levels : List ℚ)
    (means : List ℚ) : List Char :=
  means.map (decodeMean kmer_keys kmer_levels)

/-- Decoding applied to the output of `extract_event_means`: a NaN event
mean (empty averaging span, modelled `none`) leaves the decode undefined. -/
def decodeEvents (kmer_keys : List (List Char)) (kmer_levels : List ℚ)
    (means : List (Option ℚ)) : Option (List Char) :=
  (means.mapM id).map (decodeMeans kmer_keys kmer_levels)

/-- Levenshtein edit distance with unit costs, the `editDistance` returned
by the external `edlib.align` call. -/
def editDistance : List Char → List Char → ℕ
  | [], ys => ys.length
  | x :: xs, [] => (x :: xs).length
  | x :: xs, y :: ys =>
      if x = y then editDistance xs ys
      else 1 + min (editDistance xs (y :: ys))
          (min (editDistance (x :: xs) ys) (editDistance xs ys))
termination_by xs ys => xs.length + ys.length

/-- `1 - align_result['editDistance'] / len(reference)`. -/
def accuracy (decoded reference : List Char) : ℚ :=
  1 - (editDistance decoded reference : ℚ) / reference.length

/-! ## The simulator (`Data Generator` notebook) -/

/-- `NUCLEOTIDE_ORDER = {"A": 0, "C": 1, "G": 2, "T": 3}`; other characters
raise `KeyError` in Python and are kept outside the theorems' scope. -/
def NUCLEOTIDE_ORDER (c : Char) : ℕ :=
  if c = 'C' then 1 else if c = 'G' then 2 else if c = 'T' then 3 else 0

/-- The four nucleotide characters. -/
def nucleotides : List Char := ['A', 'C', 'G', 'T']

/-- Python `seq[a:b]` on a string, as a list of characters. -/
def pySliceC (l : List Char) (a b : ℕ) : List Char :=
  (l.drop a).take (b - a)

/-- `Pore._kmer_index`: fold the k-mer left to right,
`index = (index << 2) + code(symbol)`.  (`kmer[0]` on an empty k-mer raises
in Python; the embedded theorems keep `k ≥ 1`.) -/
def kmer_index : List Char → ℕ
  | [] => 0
  | c :: rest => rest.foldl (fun acc ch => acc * 4 + NUCLEOTIDE_ORDER ch)
      (NUCLEOTIDE_ORDER c)

/-- `np.round` (half to even) followed by `int(...)`, on an exact rational. -/
def npRoundInt (q : ℚ) : ℤ :=
  if q - ⌊q⌋ < 1 / 2 then ⌊q⌋
  else if 1 / 2 < q - ⌊q⌋ then ⌊q⌋ + 1
  else if ⌊q⌋ % 2 = 0 then ⌊q⌋ else ⌊q⌋ + 1

/-- `DWELL['fixed'] = lambda mean_dwell: mean_dwell` — the mean is returned
unchanged, with no rounding. -/
def DWELL_fixed (mean_dwell : ℚ) : ℚ := mean_dwell

/-- `DWELL['normal']` applied to the raw Gaussian draw
(`np.random.normal(mean_dwell)`): `max(0, int(np.round(draw)))`. -/
def DWELL_normal (draw : ℚ) : ℤ := max 0 (npRoundInt draw)

/-- `DWELL['gamma']` applied to the raw gamma draw
(`np.random.gamma(2.0, mean/2)`): `int(np.round(draw))`. -/
def DWELL_gamma (draw : ℚ) : ℤ := npRoundInt draw

/-- `DWELL['poisson']` applied to the raw Poisson draw, which is already a
non-negative integer. -/
def DWELL_poisson (draw : ℕ) : ℕ := draw

/-- `NOISE['clean'] = lambda signal, amp: np.zeros(len(signal))`. -/
def NOISE_clean (signal : List ℚ) : List ℚ :=
  List.replicate signal.length 0

/-- `np.array(signal) + noise` (elementwise). -/
def addNoise (signal noise : List ℚ) : List ℚ :=
  List.zipWith (· + ·) signal noise

/-- The key set of the `DWELL` dict. -/
def DWELL_keys : List String := ["fixed", "normal", "gamma", "poisson"]

/-- The key set of the `NOISE` dict. -/
def NOISE_keys : List String := ["clean", "normal"]

/-- `CURRENT_LEVELS['even_space'] = list(np.arange(0, 1, 1 / 4 ** kmer_len))`:
for `kmer_len ≥ 0` the step `4^{-kmer_len}` is exact in binary floating
point and the list is `[i / 4^kmer_len for i in range(4^kmer_len)]`; for a
negative `kmer_len` the step exceeds 1 and the list is `[0.0]`. -/
def even_space_levels (kmer_len : ℤ) : List ℚ :=
  if kmer_len < 0 then [0]
  else (List.range (4 ^ kmer_len.toNat)).map fun i =>
    (i : ℚ) / 4 ^ kmer_len.toNat

/-- `CURRENT_LEVELS['random']`: `range(4 ** kmer_len)` raises `TypeError`
for negative `kmer_len` (`4 ** kmer_len` is then a float); otherwise one
uniform draw per k-mer, modelled by the explicit draw stream. -/
def random_levels (kmer_len : ℤ) (draws : ℕ → ℚ) : Option (List ℚ) :=
  if kmer_len < 0 then none
  else some ((List.range (4 ^ kmer_len.toNat)).map draws)

/-- `serial_resistor_model(kmer, kmer_len)`: sum `(kmer & 3)/3` over
`kmer_len` right-shifts, divided by `kmer_len`; the final division raises
`ZeroDivisionError` at `kmer_len = 0`. -/
def serial_resistor_model (kmer : ℕ) (kmer_len : ℤ) : Option ℚ :=
  if kmer_len = 0 then none
  else
    let conductance := (List.range kmer_len.toNat).foldl
      (fun acc i => acc + (((kmer / 4 ^ i) % 4 : ℕ) : ℚ) / 3) 0
    some (conductance / kmer_len)

/-- `CURRENT_LEVELS['resistor_model']`: again `range(4 ** kmer_len)` raises
for negative `kmer_len`; at `kmer_len = 0` the single call
`serial_resistor_model(0, 0)` raises. -/
def resistor_levels (kmer_len : ℤ) : Option (List ℚ) :=
  if kmer_len < 0 then none
  else (List.range (4 ^ kmer_len.toNat)).mapM fun m =>
    serial_resistor_model m kmer_len

/-- `CURRENT_LEVELS[current_level_model](kmer_len)`: an unknown model name
raises `KeyError`. -/
def current_levels_model (name : String) (kmer_len : ℤ) (draws : ℕ → ℚ) :
    Option (List ℚ) :=
  if name = "even_space" then some (even_space_levels kmer_len)
  else if name = "random" then random_levels kmer_len draws
  else if name = "resistor_model" then resistor_levels kmer_len
  else none

/-- The state a successfully constructed `Pore` holds. -/
structure Pore where
  kmer_len : ℤ
  mean_dwell_time : ℚ
  noise_amplitude : ℚ
  signal_noise_process : String
  dwell_distribution_process : String
  current_levels : List ℚ
deriving Repr

/-- `Pore.__init__`: looks up `NOISE[signal_noise_process]`, then
`DWELL[dwell_distribution_process]`, then evaluates
`CURRENT_LEVELS[current_level_model](kmer_len)`; any raising step makes
construction fail (`none`).  The k-mer length itself is never validated. -/
def pore_init (kmer_len : ℤ) (mean_dwell_time : ℚ) (signal_to_noise : ℚ)
    (signal_noise_process dwell_distribution_process current_level_model :
      String) (draws : ℕ → ℚ) : Option Pore :=
  if signal_noise_process ∉ NOISE_keys then none
  else if dwell_distribution_process ∉ DWELL_keys then none
  else
    match current_levels_model current_level_model kmer_len draws with
    | none => none
    | some levels =>
        some ⟨kmer_len, mean_dwell_time, 1 / signal_to_noise,
          signal_noise_process, dwell_distribution_process, levels⟩

/-- One iteration of the loop in `Pore.generate_signal`: append
`dwells i` copies of `current_levels[kmer_index]` to the signal, then append
`max(0, len(signal) - 1)` to the alignment (`ℕ` subtraction is exactly that
clamp). -/
def generateStep (levels : List ℚ) (k : ℕ) (dwells : ℕ → ℕ)
    (seq : List Char) (acc : List ℚ × List ℕ) (i : ℕ) : List ℚ × List ℕ :=
  let kmer := pySliceC seq i (i + k)
  let sig := acc.1 ++ List.replicate (dwells i) (levels.getD (kmer_index kmer) 0)
  (sig, acc.2 ++ [sig.length - 1])

/-- `Pore.generate_signal(dna_sequence)` before noise is added: the raw
signal and the alignment, with the per-position dwell draws supplied as the
stream `dwells`.  The loop runs `i in range(len(seq) - k + 1)`, i.e.
`len(seq) + 1 - k` truncated at 0 iterations. -/
def generate_signal (levels : List ℚ) (k : ℕ) (dwells : ℕ → ℕ)
    (seq : List Char) : List ℚ × List ℕ :=
  (List.range (seq.length + 1 - k)).foldl (generateStep levels k dwells seq)
    ([], [0])

/-! ## Claim theorems: segmenter edge behaviour and policies -/

/-- C3: the events and ranges returned by `transition_detector` are
identical for any two values of the threshold argument — the function
overwrites the parameter with the constant `0.03` before the scan. -/
theorem C3_threshold_ignored (signal : List ℚ) (w : ℕ) (t₁ t₂ : ℚ) :
    transition_detector signal w t₁ = transition_detector signal w t₂ := rfl

/-- C4, counterexample: on the signal `[0,1,0,0,0]` with window 3 the scan
fires at window index `i = 0` (Python's `ranges[-1]` wraps to the last
range, which is `0 < 0.03`, while `ranges[0] = 1 > 0.03`), emitting the
boundary `0 + 3//2 = 1`; the claim says a boundary is never emitted for
`i = 0`. -/
theorem C4_counterexample :
    0 ∈ detectedIndices [0, 1, 0, 0, 0] 3 ∧
      (transition_detector [0, 1, 0, 0, 0] 3 (3 / 100)).1 = [0, 1, 5] := by
  norm_num [detectedIndices, transition_detector, sigRanges, prevRange,
    hardThreshold, pySlice, listMax, listMin, List.range_succ, List.getD,
    List.getLastD]

/-- C4, amended: the scan fires at window index `0` exactly when the *last*
window's range is below `0.03` and the first window's range is above it —
Python's `ranges[i-1]` at `i = 0` reads the last element, so the first
window is compared against the last range, not skipped. -/
theorem C4_amended (signal : List ℚ) (w : ℕ) :
    0 ∈ detectedIndices signal w ↔
      (sigRanges signal w).getLastD 0 < hardThreshold ∧
        hardThreshold < (sigRanges signal w).getD 0 0 := by
  unfold detectedIndices
  simp only [List.mem_filter, List.mem_range, decide_eq_true_eq]
  constructor
  · rintro ⟨-, h⟩
    simpa [prevRange] using h
  · rintro ⟨h1, h2⟩
    refine ⟨?_, by simpa [prevRange] using And.intro h1 h2⟩
    rcases Nat.eq_zero_or_pos (sigRanges signal w).length with h | h
    · rw [List.length_eq_zero] at h
      rw [h] at h2
      norm_num [hardThreshold, List.getD] at h2
    · exact h

/-- C5, counterexample: on signal `[3,0,0]` with events `[0,3]` the code's
first event mean is `(3+0+0)/3 = 1`, the mean of the span *including*
index 0; the claim's span "excluding index 0 itself" (`signal[1:3]`) has
mean 0. -/
theorem C5_counterexample :
    extract_event_means [3, 0, 0] [0, 3] ≠ [npMean (pySlice [3, 0, 0] 1 3)] := by
  norm_num [extract_event_means, npMean, pySlice, List.range_succ, List.getD]

/-- C6, counterexample: `DWELL['fixed']` applied to the mean `10.5` returns
`10.5` unchanged — not the mean rounded to an integer (`np.round` would
give 10), and not an integer sample count at all (its denominator is 2). -/
theorem C6_counterexample :
    DWELL_fixed (21 / 2) ≠ ((npRoundInt (21 / 2) : ℤ) : ℚ) ∧
      (DWELL_fixed (21 / 2)).den ≠ 1 := by
  have hf : ⌊(21 / 2 : ℚ)⌋ = 10 := by norm_num [Int.floor_eq_iff]
  constructor
  · norm_num [DWELL_fixed, npRoundInt, hf]
  · norm_num [DWELL_fixed]

/-- C6, amended: the `fixed` dwell policy returns the mean unchanged (no
rounding), so it is an integer only when the mean is; the `normal` policy
is clamped to be non-negative, and the `gamma` and `poisson` policies are
non-negative because their draws are (gamma draws are `≥ 0`, Poisson draws
are non-negative integers). -/
theorem C6_amended (m dn dg : ℚ) (dp : ℕ) (hg : 0 ≤ dg) :
    DWELL_fixed m = m ∧ 0 ≤ DWELL_normal dn ∧ 0 ≤ DWELL_gamma dg ∧
      0 ≤ DWELL_poisson dp := by
  refine ⟨rfl, le_max_left _ _, ?_, Nat.zero_le _⟩
  have h0 : 0 ≤ ⌊dg⌋ := Int.floor_nonneg.mpr hg
  unfold DWELL_gamma npRoundInt
  split_ifs <;> omega

/-- C6, witness: the amended statement at mean 10, draws 5 and 2, Poisson
draw 7. -/
theorem C6_witness :
    (0 : ℚ) ≤ 2 ∧
      (DWELL_fixed 10 = 10 ∧ 0 ≤ DWELL_normal 5 ∧ 0 ≤ DWELL_gamma 2 ∧
        0 ≤ DWELL_poisson 7) :=
  ⟨by norm_num, C6_amended 10 5 2 7 (by norm_num)⟩

/-- C7, counterexample: a `Pore` with the non-positive k-mer length 0 and
the `even_space` current-level model is constructed successfully (the
level table is `[0.0]`); construction does not reject non-positive k-mer
lengths. -/
theorem C7_counterexample :
    (pore_init 0 10 250 "clean" "fixed" "even_space" (fun _ => 0)).isSome
      = true := by
  simp [pore_init, NOISE_keys, DWELL_keys, current_levels_model]

/-- C7, amended: an unknown dwell, noise, or current-level policy name does
fail at construction time (a `KeyError` from the dictionary lookup), but a
non-positive k-mer length is never validated: it fails only incidentally
for some current-level models and succeeds for others. -/
theorem C7_amended (k : ℤ) (m snr : ℚ) (np dp lp : String) (draws : ℕ → ℚ)
    (h : np ∉ NOISE_keys ∨ dp ∉ DWELL_keys ∨
      (lp ≠ "even_space" ∧ lp ≠ "random" ∧ lp ≠ "resistor_model")) :
    pore_init k m snr np dp lp draws = none := by
  unfold pore_init current_levels_model
  rcases h with h | h | ⟨h1, h2, h3⟩
  · simp [h]
  · by_cases hn : np ∈ NOISE_keys <;> simp [hn, h]
  · by_cases hn : np ∈ NOISE_keys <;> by_cases hd : dp ∈ DWELL_keys <;>
      simp [hn, hd, h1, h2, h3]

/-- C7, witness: the amended statement at the unknown noise policy name
`"bogus"`. -/
theorem C7_witness :
    "bogus" ∉ NOISE_keys ∧
      pore_init 5 10 250 "bogus" "poisson" "random" (fun _ => 0) = none :=
  ⟨by simp [NOISE_keys],
   C7_amended 5 10 250 "bogus" "poisson" "random" (fun _ => 0)
     (Or.inl (by simp [NOISE_keys]))⟩

/-- C9: a sequence shorter than the k-mer length makes the loop of
`generate_signal` run zero times: no error is raised and the result is the
empty signal with the single-entry alignment `[0]`, for any dwell draws —
including lengths below `k - 1`, where `L - k + 2 < 1`. -/
theorem C9_short_sequence (levels : List ℚ) (k : ℕ) (dwells : ℕ → ℕ)
    (seq : List Char) (h : seq.length < k) :
    generate_signal levels k dwells seq = ([], [0]) := by
  unfold generate_signal
  have hn : seq.length + 1 - k = 0 := by omega
  rw [hn]
  rfl

/-- C9, witness: the two-character sequence `"AA"` with `k = 5`. -/
theorem C9_witness :
    (['A', 'A'] : List Char).length < 5 ∧
      generate_signal [0] 5 (fun _ => 3) ['A', 'A'] = ([], [0]) :=
  ⟨by decide, C9_short_sequence [0] 5 (fun _ => 3) ['A', 'A'] (by decide)⟩

/-- C10: there is a signal (here `[0,0,0,1]`, window 2) whose last detected
boundary is `len(signal) - 1`, so the final event's averaging span
`[boundary+1, len)` is empty and `extract_event_means` takes the mean of
zero samples — `np.mean` of an empty slice, NaN, modelled `none`. -/
theorem C10_nan_final_event :
    ∃ (signal : List ℚ) (w : ℕ) (t : ℚ),
      2 ≤ w ∧ detectedIndices signal w ≠ [] ∧
      ((detectedIndices signal w).map (· + w / 2)).getLastD 0
          = signal.length - 1 ∧
      (extract_event_means signal
          (transition_detector signal w t).1).getLastD (some 0) = none := by
  refine ⟨[0, 0, 0, 1], 2, 3 / 100, by norm_num, ?_, ?_, ?_⟩ <;>
    norm_num [detectedIndices, transition_detector, extract_event_means,
      npMean, sigRanges, prevRange, hardThreshold, pySlice, listMax, listMin,
      List.range_succ, List.getD, List.getLastD]

/-! ## The alignment invariant of `generate_signal` (C8) -/

/-- Loop invariant of `Pore.generate_signal`: after `n` iterations the
alignment has `n + 1` entries, starts with 0, is non-decreasing, and ends
with `len(signal) - 1` clamped at 0. -/
theorem generate_signal_inv (levels : List ℚ) (k : ℕ) (dwells : ℕ → ℕ)
    (seq : List Char) (n : ℕ) :
    ((List.range n).foldl (generateStep levels k dwells seq) ([], [0])).2.length
        = n + 1 ∧
    ((List.range n).foldl (generateStep levels k dwells seq) ([], [0])).2.head?
        = some 0 ∧
    List.Chain' (· ≤ ·)
      ((List.range n).foldl (generateStep levels k dwells seq) ([], [0])).2 ∧
    ((List.range n).foldl (generateStep levels k dwells seq) ([], [0])).2.getLast?
        = some
          (((List.range n).foldl (generateStep levels k dwells seq)
            ([], [0])).1.length - 1) := by
  induction n with
  | zero => simp
  | succ n ih =>
    obtain ⟨hlen, hhead, hchain, hlast⟩ := ih
    rw [List.range_succ, List.foldl_append]
    set p := (List.range n).foldl (generateStep levels k dwells seq) ([], [0])
      with hp
    simp only [List.foldl_cons, List.foldl_nil]
    show (p.2 ++ [_]).length = n + 1 + 1 ∧ (p.2 ++ [_]).head? = some 0 ∧
      List.Chain' (· ≤ ·) (p.2 ++ [_]) ∧ _
    have hne : p.2 ≠ [] := by
      intro h
      rw [h] at hlen
      simp at hlen
    refine ⟨by simp [hlen], ?_, ?_, ?_⟩
    · rw [List.head?_append_of_ne_nil _ hne, hhead]
    · rw [List.chain'_append]
      refine ⟨hchain, List.chain'_singleton _, ?_⟩
      intro x hx y hy
      rw [hlast] at hx
      simp only [Option.mem_def, Option.some.injEq] at hx
      simp only [List.head?_cons, Option.mem_def, Option.some.injEq] at hy
      subst hx
      subst hy
      simp only [generateStep, List.length_append]
      omega
    · simp [generateStep]

/-- C8: for every DNA sequence of length `L ≥ k` and every outcome of the
dwell draws (zero dwell counts included — the alignment entry is the
clamped `max(0, len(signal)-1)`), the alignment returned by
`generate_signal` has length exactly `L - k + 2`, starts with 0, and is
non-decreasing. -/
theorem C8_alignment_shape (levels : List ℚ) (k : ℕ) (dwells : ℕ → ℕ)
    (seq : List Char) (hk : 1 ≤ k) (hkL : k ≤ seq.length)
    (hnuc : ∀ c ∈ seq, c ∈ nucleotides) :
    (generate_signal levels k dwells seq).2.length = seq.length - k + 2 ∧
      (generate_signal levels k dwells seq).2.head? = some 0 ∧
      List.Chain' (· ≤ ·) (generate_signal levels k dwells seq).2 := by
  obtain ⟨hlen, hhead, hchain, -⟩ :=
    generate_signal_inv levels k dwells seq (seq.length + 1 - k)
  exact ⟨by rw [generate_signal, hlen]; omega, hhead, hchain⟩

/-- C8, witness: sequence `"ACG"`, `k = 2`, all dwell draws zero. -/
theorem C8_witness :
    1 ≤ 2 ∧ 2 ≤ (['A', 'C', 'G'] : List Char).length ∧
      ((generate_signal [0] 2 (fun _ => 0) ['A', 'C', 'G']).2.length
          = (['A', 'C', 'G'] : List Char).length - 2 + 2 ∧
        (generate_signal [0] 2 (fun _ => 0) ['A', 'C', 'G']).2.head? = some 0 ∧
        List.Chain' (· ≤ ·)
          (generate_signal [0] 2 (fun _ => 0) ['A', 'C', 'G']).2) :=
  ⟨by norm_num, by norm_num,
   C8_alignment_shape [0] 2 (fun _ => 0) ['A', 'C', 'G'] (by norm_num)
     (by norm_num) (by decide)⟩

/-! ## Index lemmas for slices and ranges (used by C2, C5, C1) -/

/-- Two lists are equal when they have the same length and agree at every
`getD` position. -/
theorem list_eq_of_getD (l₁ l₂ : List ℚ) (hlen : l₁.length = l₂.length)
    (h : ∀ i < l₁.length, l₁.getD i 0 = l₂.getD i 0) : l₁ = l₂ := by
  apply List.ext_getElem hlen
  intro i h₁ h₂
  have := h i h₁
  rwa [List.getD_eq_getElem _ _ h₁, List.getD_eq_getElem _ _ h₂] at this

/-- `getD` through a map over `List.range`. -/
theorem getD_map_range {α : Type} (f : ℕ → α) (d : α) (n i : ℕ) (h : i < n) :
    ((List.range n).map f).getD i d = f i := by
  have h' : i < ((List.range n).map f).length := by simpa using h
  rw [List.getD_eq_getElem _ _ h']
  simp

theorem pySlice_length (l : List ℚ) (a b : ℕ) :
    (pySlice l a b).length = min b l.length - a := by
  simp only [pySlice, List.length_take, List.length_drop]
  omega

theorem pySlice_getD (l : List ℚ) (a b i : ℕ) (h : i < min b l.length - a) :
    (pySlice l a b).getD i 0 = l.getD (a + i) 0 := by
  have h₁ : i < (pySlice l a b).length := by rw [pySlice_length]; exact h
  have h₂ : a + i < l.length := by omega
  rw [List.getD_eq_getElem _ _ h₁, List.getD_eq_getElem _ _ h₂]
  simp only [pySlice, List.getElem_take, List.getElem_drop]

/-- A Python slice, written as an indexed map. -/
theorem pySlice_eq_map_range (l : List ℚ) (a b : ℕ) :
    pySlice l a b
      = (List.range (min b l.length - a)).map fun j => l.getD (a + j) 0 := by
  apply list_eq_of_getD
  · rw [pySlice_length]; simp
  · intro i hi
    rw [pySlice_length] at hi
    rw [pySlice_getD _ _ _ _ hi, getD_map_range _ _ _ _ hi]

theorem sigRanges_length (signal : List ℚ) (w : ℕ) :
    (sigRanges signal w).length = signal.length + 1 - w := by
  simp [sigRanges]

/-- The range of the window starting at `i`, written with explicit sample
indices (`signal[i], …, signal[i+w-1]`) rather than a slice. -/
def rangeAt (signal : List ℚ) (w : ℕ) (i : ℕ) : ℚ :=
  listMax ((List.range w).map fun j => signal.getD (i + j) 0)
    - listMin ((List.range w).map fun j => signal.getD (i + j) 0)

theorem sigRanges_getD (signal : List ℚ) (w i : ℕ)
    (h : i < signal.length + 1 - w) :
    (sigRanges signal w).getD i 0 = rangeAt signal w i := by
  unfold sigRanges rangeAt
  rw [getD_map_range _ _ _ _ h]
  have hmin : min (i + w) signal.length - i = w := by omega
  rw [pySlice_eq_map_range, hmin]

theorem getLastD_eq_getD (l : List ℚ) (h : l ≠ []) :
    l.getLastD 0 = l.getD (l.length - 1) 0 := by
  have hl : 0 < l.length := List.length_pos.mpr h
  rw [List.getLastD_eq_getLast?, List.getLast?_eq_getElem?,
    List.getD_eq_getElem?_getD]

/-! ## C2: the boundary-emission rule of the segmenter -/

/-- The boundary list described by the claim's sentence: scan `i` from 1
upward, and emit a boundary at `i + w/2` exactly when `range_{i-1} < t`
and `range_i ≥ t`, for the *passed* threshold `t`. -/
def claimBoundaries (signal : List ℚ) (w : ℕ) (t : ℚ) : List ℕ :=
  ((List.range (sigRanges signal w).length).filter fun i =>
    decide (1 ≤ i ∧ (sigRanges signal w).getD (i - 1) 0 < t ∧
      t ≤ (sigRanges signal w).getD i 0)).map (· + w / 2)

/-- C2, counterexample: on the step signal `[0,0,0,1,1,1,1]` with `w = 2`
and threshold `t = 1000`, the claim's rule emits no boundary (no range ever
reaches 1000), but the code emits the boundary 3 — the passed threshold is
ignored in favour of the hard-coded `0.03`. -/
theorem C2_counterexample :
    (transition_detector [0, 0, 0, 1, 1, 1, 1] 2 1000).1
      ≠ 0 :: claimBoundaries [0, 0, 0, 1, 1, 1, 1] 2 1000
          ++ [([0, 0, 0, 1, 1, 1, 1] : List ℚ).length] := by
  norm_num [transition_detector, claimBoundaries, detectedIndices, sigRanges,
    prevRange, hardThreshold, pySlice, listMax, listMin, List.range_succ,
    List.getD, List.getLastD]

/-- The boundary list per the amended claim: the scan runs `i` from 0 over
all window indices; the "previous" range at `i = 0` is the *last* window's
range (Python wrap-around); the comparison is against the hard-coded
`0.03`, strictly on both sides. -/
def amendedBoundaries (signal : List ℚ) (w : ℕ) : List ℕ :=
  ((List.range (signal.length + 1 - w)).filter fun i =>
    decide ((if i = 0 then rangeAt signal w (signal.length - w)
        else rangeAt signal w (i - 1)) < hardThreshold ∧
      hardThreshold < rangeAt signal w i)).map (· + w / 2)

/-- C2, amended: for every signal, window size `w ≥ 2` and threshold `t`,
the events of `transition_detector` are `0`, then `i + w/2` for exactly the
window indices `i` (scanned from 0, with the previous range of `i = 0`
wrapping to the last window) where the previous range is `< 0.03` and
`range_i > 0.03` — strict, with the hard-coded `0.03`; `t` is ignored. -/
theorem C2_amended (signal : List ℚ) (w : ℕ) (t : ℚ) (hw : 2 ≤ w) :
    (transition_detector signal w t).1
      = 0 :: amendedBoundaries signal w ++ [signal.length] := by
  have hkey : detectedIndices signal w
      = (List.range (signal.length + 1 - w)).filter fun i =>
        decide ((if i = 0 then rangeAt signal w (signal.length - w)
            else rangeAt signal w (i - 1)) < hardThreshold ∧
          hardThreshold < rangeAt signal w i) := by
    simp only [detectedIndices]
    rw [sigRanges_length]
    apply List.filter_congr
    intro i hi
    rw [List.mem_range] at hi
    apply decide_eq_decide.mpr
    have h2 : (sigRanges signal w).getD i 0 = rangeAt signal w i :=
      sigRanges_getD signal w i hi
    rcases Nat.eq_zero_or_pos i with h0 | h0
    · subst h0
      have hne : sigRanges signal w ≠ [] := by
        intro h
        rw [← List.length_eq_zero, sigRanges_length] at h
        omega
      have hN1 : signal.length + 1 - w - 1 < signal.length + 1 - w := by omega
      have hlast : (sigRanges signal w).getLastD 0
          = rangeAt signal w (signal.length - w) := by
        rw [getLastD_eq_getD _ hne, sigRanges_length]
        have : signal.length + 1 - w - 1 = signal.length - w := by omega
        rw [this]
        exact sigRanges_getD signal w _ (by omega)
      simp only [prevRange, if_true, eq_self_iff_true]
      rw [hlast, h2]
    · have hi' : i - 1 < signal.length + 1 - w := by omega
      have hprev : prevRange (sigRanges signal w) i
          = rangeAt signal w (i - 1) := by
        unfold prevRange
        rw [if_neg (by omega)]
        exact sigRanges_getD signal w _ hi'
      rw [hprev, h2]
      simp [Nat.pos_iff_ne_zero.mp h0]
  show 0 :: ((detectedIndices signal w).map (· + w / 2) ++ [signal.length])
      = _
  rw [hkey]
  rfl

/-- C2, witness: the amended statement on the step signal with `w = 2` and
an arbitrary threshold. -/
theorem C2_witness :
    2 ≤ 2 ∧
      (transition_detector [0, 0, 0, 1, 1, 1, 1] 2 1000).1
        = 0 :: amendedBoundaries [0, 0, 0, 1, 1, 1, 1] 2
            ++ [([0, 0, 0, 1, 1, 1, 1] : List ℚ).length] :=
  ⟨by norm_num, C2_amended [0, 0, 0, 1, 1, 1, 1] 2 1000 (by norm_num)⟩

/-! ## C5: event means -/

theorem sum_map_range (f : ℕ → ℚ) (n : ℕ) :
    ((List.range n).map f).sum = ∑ j ∈ Finset.range n, f j := by
  induction n with
  | zero => simp
  | succ n ih =>
    rw [List.range_succ, List.map_append, List.sum_append,
      Finset.sum_range_succ, ih]
    simp

/-- `np.mean(signal[a:b])` as an indexed sum over sample positions. -/
theorem npMean_pySlice (l : List ℚ) (a b : ℕ) :
    npMean (pySlice l a b)
      = if a < min b l.length
          then some ((∑ j ∈ Finset.range (min b l.length - a),
              l.getD (a + j) 0) / ((min b l.length - a : ℕ) : ℚ))
          else none := by
  unfold npMean
  rw [pySlice_eq_map_range, sum_map_range]
  rcases Nat.lt_or_ge a (min b l.length) with h | h
  · rw [if_pos h, if_neg]
    · simp
    · simp only [List.isEmpty_iff]
      intro hcon
      have := congrArg List.length hcon
      simp at this
      omega
  · rw [if_neg (not_lt.mpr h)]
    have hz : min b l.length - a = 0 := by omega
    rw [hz]
    simp

/-- The event means per the amended claim: one mean per adjacent boundary
pair, the arithmetic mean (indexed sum over sample positions divided by the
span width) of the span that starts at sample 0 for the first event and at
`events[i] + 1` — excluding the boundary sample — for every later event,
undefined (`none`) when the span is empty. -/
def eventMeansSpec (signal : List ℚ) (events : List ℕ) : List (Option ℚ) :=
  (List.range (events.length - 1)).map fun i =>
    let s := if i = 0 then 0 else events.getD i 0 + 1
    let e := min (events.getD (i + 1) 0) signal.length
    if s < e then
      some ((∑ j ∈ Finset.range (e - s), signal.getD (s + j) 0)
        / ((e - s : ℕ) : ℚ))
    else none

/-- C5, amended: `extract_event_means` computes, for every event, the
arithmetic mean of the event's samples where the first event's span starts
at index 0 (it *includes* index 0), and every later event's span starts at
`events[i] + 1`, excluding the boundary sample itself. -/
theorem C5_amended (signal : List ℚ) (events : List ℕ) :
    extract_event_means signal events = eventMeansSpec signal events := by
  unfold extract_event_means eventMeansSpec
  apply List.map_congr_left
  intro i hi
  dsimp only
  rw [npMean_pySlice]

/-! ## C1: the clean fixed-dwell pipeline on block signals -/

/-- The table level of a nucleotide for `kmer_len = 1`:
`current_levels[kmer_index(c)]`. -/
def levelOf (levels : List ℚ) (c : Char) : ℚ :=
  levels.getD (NUCLEOTIDE_ORDER c) 0

/-- The `kmer_table()` key list for `kmer_len = 1`: the 1-fold product of
`'ACGT'` in order. -/
def kmer1_keys : List (List Char) := [['A'], ['C'], ['G'], ['T']]

/-- A signal of per-position levels, each repeated `d` times — the clean
fixed-dwell signal shape. -/
def blockSignal (ls : List ℚ) (d : ℕ) : List ℚ :=
  ls.flatMap (List.replicate d)

theorem blockSignal_length (ls : List ℚ) (d : ℕ) :
    (blockSignal ls d).length = ls.length * d := by
  induction ls with
  | nil => simp [blockSignal]
  | cons a l ih =>
    simp only [blockSignal, List.flatMap_cons, List.length_append,
      List.length_replicate] at *
    rw [ih]
    simp only [List.length_cons]
    ring

theorem blockSignal_getD (ls : List ℚ) (d n : ℕ) (hd : 0 < d)
    (hn : n < ls.length * d) :
    (blockSignal ls d).getD n 0 = ls.getD (n / d) 0 := by
  induction ls generalizing n with
  | nil => simp at hn
  | cons a l ih =>
    rw [blockSignal, List.flatMap_cons]
    rcases Nat.lt_or_ge n d with h | h
    · rw [List.getD_append _ _ _ _ (by simpa using h), Nat.div_eq_of_lt h]
      rw [List.getD_cons_zero]
      have hn' : n < (List.replicate d a).length := by simpa using h
      rw [List.getD_eq_getElem _ _ hn', List.getElem_replicate]
    · rw [List.getD_append_right _ _ _ _ (by simpa using h)]
      simp only [List.length_replicate]
      have hrec : n - d < l.length * d := by
        simp only [List.length_cons] at hn
        have : (l.length + 1) * d = l.length * d + d := by ring
        omega
      have ih' := ih (n - d) hrec
      rw [blockSignal] at ih'
      rw [ih']
      have hdiv : n / d = (n - d) / d + 1 := by
        rw [Nat.div_eq_sub_div hd h]
      rw [hdiv, List.getD_cons_succ]

theorem addNoise_clean (s : List ℚ) : addNoise s (NOISE_clean s) = s := by
  unfold addNoise NOISE_clean
  induction s with
  | nil => rfl
  | cons a l ih => simp only [List.length_cons, List.replicate_succ,
      List.zipWith_cons_cons, add_zero, ih]

theorem foldl_generateStep_fst (levels : List ℚ) (k : ℕ) (dwells : ℕ → ℕ)
    (seq : List Char) (l : List ℕ) (acc : List ℚ × List ℕ) :
    (l.foldl (generateStep levels k dwells seq) acc).1
      = acc.1 ++ l.flatMap fun i =>
          List.replicate (dwells i)
            (levels.getD (kmer_index (pySliceC seq i (i + k))) 0) := by
  induction l generalizing acc with
  | nil => simp
  | cons i l ih =>
    rw [List.foldl_cons, ih, List.flatMap_cons]
    simp [generateStep]

theorem pySliceC_one (seq : List Char) (i : ℕ) (h : i < seq.length) :
    pySliceC seq i (i + 1) = [seq.getD i 'A'] := by
  have h1 : i + 1 - i = 1 := by omega
  unfold pySliceC
  rw [h1]
  have hd : seq.drop i = seq[i] :: seq.drop (i + 1) :=
    List.drop_eq_getElem_cons h
  rw [hd, List.take_succ_cons, List.take_zero, List.getD_eq_getElem _ _ h]

/-- Index-to-element conversion for flatMap over `List.range`. -/
theorem flatMap_range_getD {β : Type} (l : List Char) (g : Char → List β) :
    ((List.range l.length).flatMap fun i => g (l.getD i 'A')) = l.flatMap g := by
  induction l with
  | nil => simp
  | cons a l ih =>
    rw [List.length_cons, List.range_succ_eq_map, List.flatMap_cons,
      List.flatMap_map]
    simp only [List.getD_cons_zero, List.getD_cons_succ]
    rw [List.flatMap_cons, ih]

theorem flatMap_congr_mem {α β : Type} (l : List α) (f g : α → List β)
    (h : ∀ a ∈ l, f a = g a) : l.flatMap f = l.flatMap g := by
  induction l with
  | nil => rfl
  | cons a t ih =>
    rw [List.flatMap_cons, List.flatMap_cons, h a (by simp),
      ih fun x hx => h x (by simp [hx])]

/-- `generate_signal` with `k = 1`, the `fixed` dwell value `d` and any DNA
sequence produces the block signal of the per-character levels. -/
theorem generate_signal_fst_k1 (levels : List ℚ) (d : ℕ) (seq : List Char) :
    (generate_signal levels 1 (fun _ => d) seq).1
      = blockSignal (seq.map (levelOf levels)) d := by
  unfold generate_signal
  rw [foldl_generateStep_fst]
  have hn : seq.length + 1 - 1 = seq.length := by omega
  rw [hn, List.nil_append]
  have hcong : ((List.range seq.length).flatMap fun i =>
      List.replicate d (levels.getD (kmer_index (pySliceC seq i (i + 1))) 0))
      = (List.range seq.length).flatMap fun i =>
          List.replicate d (levelOf levels (seq.getD i 'A')) := by
    apply flatMap_congr_mem
    intro i hi
    rw [List.mem_range] at hi
    rw [pySliceC_one seq i hi]
    rfl
  rw [hcong, flatMap_range_getD seq fun c => List.replicate d (levelOf levels c)]
  rw [blockSignal, List.flatMap_map]

/-! ### Ranges over block signals -/

theorem foldl_max_replicate (x v : ℚ) (n : ℕ) :
    (List.replicate n v).foldl max x = if n = 0 then x else max x v := by
  induction n generalizing x with
  | zero => simp
  | succ n ih =>
    rw [List.replicate_succ, List.foldl_cons, ih]
    rcases Nat.eq_zero_or_pos n with h | h
    · simp [h]
    · rw [if_neg (Nat.pos_iff_ne_zero.mp h), if_neg (by omega : ¬n + 1 = 0),
        max_assoc, max_self]

theorem foldl_min_replicate (x v : ℚ) (n : ℕ) :
    (List.replicate n v).foldl min x = if n = 0 then x else min x v := by
  induction n generalizing x with
  | zero => simp
  | succ n ih =>
    rw [List.replicate_succ, List.foldl_cons, ih]
    rcases Nat.eq_zero_or_pos n with h | h
    · simp [h]
    · rw [if_neg (Nat.pos_iff_ne_zero.mp h), if_neg (by omega : ¬n + 1 = 0),
        min_assoc, min_self]

theorem listMax_replicate (n : ℕ) (x : ℚ) (h : 0 < n) :
    listMax (List.replicate n x) = x := by
  obtain ⟨m, rfl⟩ : ∃ m, n = m + 1 := ⟨n - 1, by omega⟩
  rw [List.replicate_succ, listMax, foldl_max_replicate]
  split_ifs <;> simp

theorem listMin_replicate (n : ℕ) (x : ℚ) (h : 0 < n) :
    listMin (List.replicate n x) = x := by
  obtain ⟨m, rfl⟩ : ∃ m, n = m + 1 := ⟨n - 1, by omega⟩
  rw [List.replicate_succ, listMin, foldl_min_replicate]
  split_ifs <;> simp

theorem listMax_replicate_append (a b : ℕ) (x y : ℚ) (ha : 0 < a)
    (hb : 0 < b) :
    listMax (List.replicate a x ++ List.replicate b y) = max x y := by
  obtain ⟨a', rfl⟩ : ∃ a', a = a' + 1 := ⟨a - 1, by omega⟩
  rw [List.replicate_succ, List.cons_append, listMax, List.foldl_append,
    foldl_max_replicate, foldl_max_replicate]
  split_ifs with h1 h2 <;> simp_all

theorem listMin_replicate_append (a b : ℕ) (x y : ℚ) (ha : 0 < a)
    (hb : 0 < b) :
    listMin (List.replicate a x ++ List.replicate b y) = min x y := by
  obtain ⟨a', rfl⟩ : ∃ a', a = a' + 1 := ⟨a - 1, by omega⟩
  rw [List.replicate_succ, List.cons_append, listMin, List.foldl_append,
    foldl_min_replicate, foldl_min_replicate]
  split_ifs with h1 h2 <;> simp_all

theorem pySlice_split (l : List ℚ) (a b c : ℕ) (hab : a ≤ b) (hbc : b ≤ c) :
    pySlice l a c = pySlice l a b ++ pySlice l b c := by
  unfold pySlice
  have hc : c - a = (b - a) + (c - b) := by omega
  rw [hc, List.take_add, List.drop_drop]
  have hb' : a + (b - a) = b := by omega
  rw [hb']

/-- A span of the block signal lying inside one block is constant. -/
theorem pySlice_blockSignal_const (ls : List ℚ) (d q s e : ℕ) (hd : 0 < d)
    (hse : s ≤ e) (he : e ≤ ls.length * d)
    (hq : ∀ n, s ≤ n → n < e → n / d = q) :
    pySlice (blockSignal ls d) s e = List.replicate (e - s) (ls.getD q 0) := by
  apply list_eq_of_getD
  · rw [pySlice_length, blockSignal_length, List.length_replicate]
    omega
  · intro i hi
    rw [pySlice_length, blockSignal_length] at hi
    have hie : s + i < e := by omega
    rw [pySlice_getD _ _ _ _ (by rw [blockSignal_length]; omega)]
    rw [blockSignal_getD _ _ _ hd (by omega)]
    rw [hq (s + i) (by omega) hie]
    have hrep : i < (List.replicate (e - s) (ls.getD q 0)).length := by
      simp; omega
    rw [List.getD_eq_getElem _ _ hrep, List.getElem_replicate]

theorem pred_mod (d i : ℕ) (hd : 0 < d) (h : i % d ≠ 0) :
    (i - 1) % d = i % d - 1 := by
  have hdm := Nat.div_add_mod i d
  have hr : i % d < d := Nat.mod_lt _ hd
  have hi : i - 1 = d * (i / d) + (i % d - 1) := by omega
  rw [hi, Nat.mul_add_mod, Nat.mod_eq_of_lt (by omega)]

/-- The window range over a block signal: 0 inside a block, the absolute
level difference across the block boundary for a straddling window. -/
theorem sigRanges_blockSignal (ls : List ℚ) (d w i : ℕ) (hw : 2 ≤ w)
    (hwd : w ≤ d) (hi : i < ls.length * d + 1 - w) :
    (sigRanges (blockSignal ls d) w).getD i 0
      = if i % d + w ≤ d then 0
        else |ls.getD (i / d + 1) 0 - ls.getD (i / d) 0| := by
  have hd : 0 < d := by omega
  have hM : w ≤ ls.length * d := by
    by_contra hcon
    omega
  have hiw : i + w ≤ ls.length * d := by omega
  unfold sigRanges
  rw [blockSignal_length]
  rw [getD_map_range _ _ _ _ (by omega)]
  have hdm : d * (i / d) + i % d = i := Nat.div_add_mod i d
  have hr : i % d < d := Nat.mod_lt _ hd
  by_cases hin : i % d + w ≤ d
  · have key : ∀ n, i ≤ n → n < i + w → n / d = i / d := by
      intro n h1 h2
      apply Nat.div_eq_of_lt_le
      · calc i / d * d = d * (i / d) := Nat.mul_comm _ d
          _ ≤ n := by omega
      · have hexp : (i / d + 1) * d = d * (i / d) + d := by ring
        rw [hexp]
        omega
    rw [pySlice_blockSignal_const ls d (i / d) i (i + w) hd (by omega) hiw key]
    rw [listMax_replicate _ _ (by omega), listMin_replicate _ _ (by omega)]
    rw [if_pos hin, sub_self]
  · have hp1 : i < d * (i / d) + d := by omega
    have hp2 : d * (i / d) + d < i + w := by omega
    rw [if_neg hin]
    rw [pySlice_split _ i (d * (i / d) + d) (i + w) (by omega) (by omega)]
    have key1 : ∀ n, i ≤ n → n < d * (i / d) + d → n / d = i / d := by
      intro n h1 h2
      apply Nat.div_eq_of_lt_le
      · calc i / d * d = d * (i / d) := Nat.mul_comm _ d
          _ ≤ n := by omega
      · have hexp : (i / d + 1) * d = d * (i / d) + d := by ring
        rw [hexp]
        omega
    have key2 : ∀ n, d * (i / d) + d ≤ n → n < i + w → n / d = i / d + 1 := by
      intro n h1 h2
      apply Nat.div_eq_of_lt_le
      · calc (i / d + 1) * d = d * (i / d) + d := by ring
          _ ≤ n := h1
      · have hexp : (i / d + 1 + 1) * d = d * (i / d) + d + d := by ring
        rw [hexp]
        omega
    rw [pySlice_blockSignal_const ls d (i / d) i (d * (i / d) + d) hd
      (by omega) (by omega) key1]
    rw [pySlice_blockSignal_const ls d (i / d + 1) (d * (i / d) + d) (i + w)
      hd (by omega) (by omega) key2]
    rw [listMax_replicate_append _ _ _ _ (by omega) (by omega)]
    rw [listMin_replicate_append _ _ _ _ (by omega) (by omega)]
    rw [max_sub_min_eq_abs, abs_sub_comm]

/-- On a block signal whose adjacent levels are separated by more than the
hard threshold, the scan fires exactly at the window indices congruent to
`d - w + 1` modulo `d`. -/
theorem detectedIndices_blockSignal (ls : List ℚ) (d w : ℕ) (hw : 2 ≤ w)
    (hwd : w ≤ d)
    (hgap : ∀ u, u + 1 < ls.length →
      hardThreshold < |ls.getD (u + 1) 0 - ls.getD u 0|) :
    detectedIndices (blockSignal ls d) w
      = (List.range (ls.length * d + 1 - w)).filter fun i =>
          decide (i % d = d + 1 - w) := by
  have hd : 0 < d := by omega
  have hth : (0 : ℚ) < hardThreshold := by norm_num [hardThreshold]
  have hN : (sigRanges (blockSignal ls d) w).length = ls.length * d + 1 - w := by
    rw [sigRanges_length, blockSignal_length]
  -- a window straddles a block boundary iff its range exceeds the threshold
  have hcross : ∀ j, j < ls.length * d + 1 - w →
      (hardThreshold < (sigRanges (blockSignal ls d) w).getD j 0 ↔
        d < j % d + w) := by
    intro j hj
    rw [sigRanges_blockSignal ls d w j hw hwd hj]
    by_cases hjin : j % d + w ≤ d
    · rw [if_pos hjin]
      exact iff_of_false (not_lt.mpr hth.le) (by omega)
    · rw [if_neg hjin]
      have hdm : d * (j / d) + j % d = j := Nat.div_add_mod j d
      have hr : j % d < d := Nat.mod_lt _ hd
      have hjw : j + w ≤ ls.length * d := by omega
      have hq1 : j / d + 1 < ls.length := by
        have h2 : (j / d + 1) * d < ls.length * d := by
          calc (j / d + 1) * d = d * (j / d) + d := by ring
            _ < ls.length * d := by omega
        exact Nat.lt_of_mul_lt_mul_right h2
      exact iff_of_true (hgap (j / d) hq1) (by omega)
  have hlow : ∀ j, j < ls.length * d + 1 - w →
      ((sigRanges (blockSignal ls d) w).getD j 0 < hardThreshold ↔
        j % d + w ≤ d) := by
    intro j hj
    rw [sigRanges_blockSignal ls d w j hw hwd hj]
    by_cases hjin : j % d + w ≤ d
    · rw [if_pos hjin]
      exact iff_of_true hth hjin
    · rw [if_neg hjin]
      have hdm : d * (j / d) + j % d = j := Nat.div_add_mod j d
      have hr : j % d < d := Nat.mod_lt _ hd
      have hjw : j + w ≤ ls.length * d := by omega
      have hq1 : j / d + 1 < ls.length := by
        have h2 : (j / d + 1) * d < ls.length * d := by
          calc (j / d + 1) * d = d * (j / d) + d := by ring
            _ < ls.length * d := by omega
        exact Nat.lt_of_mul_lt_mul_right h2
      exact iff_of_false (not_lt.mpr (hgap (j / d) hq1).le) hjin
  simp only [detectedIndices]
  rw [hN]
  apply List.filter_congr
  intro i hi
  rw [List.mem_range] at hi
  apply decide_eq_decide.mpr
  have hri : i % d < d := Nat.mod_lt _ hd
  rcases Nat.eq_zero_or_pos i with h0 | h0
  · subst h0
    have hm1 : 1 ≤ ls.length := by
      rcases Nat.eq_zero_or_pos ls.length with h | h
      · rw [h, Nat.zero_mul] at hi
        omega
      · exact h
    have hPd : ls.length * d = d * (ls.length - 1) + d := by
      obtain ⟨m, hm⟩ : ∃ m, ls.length = m + 1 := ⟨ls.length - 1, by omega⟩
      rw [hm]
      simp only [Nat.add_sub_cancel]
      ring
    have hne : sigRanges (blockSignal ls d) w ≠ [] := by
      intro hcon
      rw [← List.length_eq_zero, hN] at hcon
      omega
    have hmod : (ls.length * d + 1 - w - 1) % d = d - w := by
      have hPw : ls.length * d + 1 - w - 1
          = d * (ls.length - 1) + (d - w) := by omega
      rw [hPw, Nat.mul_add_mod, Nat.mod_eq_of_lt (by omega)]
    have hprev : prevRange (sigRanges (blockSignal ls d) w) 0 <
        hardThreshold := by
      unfold prevRange
      rw [if_pos rfl, getLastD_eq_getD _ hne, hN]
      rw [hlow _ (by omega)]
      omega
    have h0cross := hcross 0 hi
    rw [Nat.zero_mod] at h0cross ⊢
    constructor
    · rintro ⟨-, hc⟩
      rw [h0cross] at hc
      omega
    · intro hc
      exact absurd hc (by omega)
  · have hi1 : i - 1 < ls.length * d + 1 - w := by omega
    have hprev : prevRange (sigRanges (blockSignal ls d) w) i
        = (sigRanges (blockSignal ls d) w).getD (i - 1) 0 := by
      unfold prevRange
      rw [if_neg (by omega)]
    rw [hprev, hlow _ hi1, hcross _ hi]
    constructor
    · rintro ⟨h1, h2⟩
      have hne : i % d ≠ 0 := by omega
      have hp := pred_mod d i hd hne
      omega
    · intro h
      have hne : i % d ≠ 0 := by omega
      have hp := pred_mod d i hd hne
      omega

theorem filter_mod_range (d w : ℕ) (hw : 2 ≤ w) (hwd : w ≤ d) (m : ℕ) :
    ((List.range ((m + 1) * d + 1 - w)).filter fun i =>
        decide (i % d = d + 1 - w))
      = (List.range m).map fun u => (u + 1) * d + 1 - w := by
  induction m with
  | zero =>
    rw [List.range_zero, List.map_nil, List.filter_eq_nil_iff.mpr]
    intro a ha
    rw [List.mem_range] at ha
    have ha' : a < d + 1 - w := by omega
    simp only [decide_eq_true_eq]
    rw [Nat.mod_eq_of_lt (by omega)]
    omega
  | succ m ih =>
    have hA : w ≤ (m + 1) * d :=
      le_trans hwd (Nat.le_mul_of_pos_left d (by omega))
    have hsplit : (m + 1 + 1) * d + 1 - w = ((m + 1) * d + 1 - w) + d := by
      have h1 : (m + 1 + 1) * d = (m + 1) * d + d := by ring
      omega
    rw [hsplit, List.range_add, List.filter_append, ih]
    have hNm : (m + 1) * d + 1 - w = d * m + (d + 1 - w) := by
      have h1 : (m + 1) * d = d * m + d := by ring
      omega
    have hd1 : List.range d = 0 :: (List.range (d - 1)).map Nat.succ := by
      conv_lhs => rw [show d = (d - 1) + 1 by omega]
      rw [List.range_succ_eq_map]
    have hsecond : ((List.range d).map fun x => (m + 1) * d + 1 - w + x).filter
        (fun i => decide (i % d = d + 1 - w)) = [(m + 1) * d + 1 - w] := by
      rw [hd1, List.map_cons, List.filter_cons, List.map_map]
      have hfire : ((m + 1) * d + 1 - w + 0) % d = d + 1 - w := by
        rw [Nat.add_zero, hNm, Nat.mul_add_mod, Nat.mod_eq_of_lt (by omega)]
      have hrest : (((List.range (d - 1)).map
          ((fun x => (m + 1) * d + 1 - w + x) ∘ Nat.succ)).filter
            fun i => decide (i % d = d + 1 - w)) = [] := by
        apply List.filter_eq_nil_iff.mpr
        intro a ha
        rw [List.mem_map] at ha
        obtain ⟨s, hs, rfl⟩ := ha
        rw [List.mem_range] at hs
        simp only [Function.comp_apply, decide_eq_true_eq]
        have hval : (m + 1) * d + 1 - w + Nat.succ s
            = d * m + (d + 1 - w + (s + 1)) := by omega
        rw [hval, Nat.mul_add_mod]
        rcases Nat.lt_or_ge (d + 1 - w + (s + 1)) d with hlt | hge
        · rw [Nat.mod_eq_of_lt hlt]
          omega
        · rw [Nat.mod_eq_sub_mod hge, Nat.mod_eq_of_lt (by omega)]
          omega
      rw [if_pos (decide_eq_true hfire), hrest, Nat.add_zero]
    rw [hsecond, List.range_succ, List.map_append]
    rfl

/-- The full event list of the segmenter on a well-separated block signal:
`0`, one boundary `(u+1)d - w + 1 + w/2` per block transition, then the
signal length. -/
theorem events_blockSignal (ls : List ℚ) (d w : ℕ) (t : ℚ) (hw : 2 ≤ w)
    (hwd : w ≤ d) (hm : ls ≠ [])
    (hgap : ∀ u, u + 1 < ls.length →
      hardThreshold < |ls.getD (u + 1) 0 - ls.getD u 0|) :
    (transition_detector (blockSignal ls d) w t).1
      = 0 :: ((List.range (ls.length - 1)).map fun u =>
            (u + 1) * d + 1 - w + w / 2)
          ++ [ls.length * d] := by
  have hm1 : 1 ≤ ls.length := by
    rcases Nat.eq_zero_or_pos ls.length with h | h
    · exact absurd (List.length_eq_zero.mp h) hm
    · exact h
  show 0 :: ((detectedIndices (blockSignal ls d) w).map (· + w / 2)
      ++ [(blockSignal ls d).length]) = _
  rw [detectedIndices_blockSignal ls d w hw hwd hgap, blockSignal_length]
  have hrw : ls.length * d + 1 - w = ((ls.length - 1) + 1) * d + 1 - w := by
    rw [Nat.sub_add_cancel hm1]
  rw [hrw, filter_mod_range d w hw hwd (ls.length - 1), List.map_map]
  rfl

theorem npMean_replicate (n : ℕ) (x : ℚ) (h : 0 < n) :
    npMean (List.replicate n x) = some x := by
  unfold npMean
  rw [if_neg]
  · rw [List.sum_replicate, List.length_replicate, nsmul_eq_mul,
      mul_div_cancel_left₀]
    exact Nat.cast_ne_zero.mpr (by omega)
  · simp only [List.isEmpty_iff]
    intro hcon
    have := congrArg List.length hcon
    simp at this
    omega

theorem map_range_getD {α β : Type} (l : List α) (dflt : α) (f : α → β) :
    (List.range l.length).map (fun i => f (l.getD i dflt)) = l.map f := by
  induction l with
  | nil => simp
  | cons a tl ih =>
    rw [List.length_cons, List.range_succ_eq_map, List.map_cons, List.map_map,
      List.map_cons]
    congr 1

/-- On a well-separated block signal, each event mean is exactly the
corresponding block's level: the boundaries are offset from the block edges
by less than one block, and for `w ≤ 4` every averaging span stays inside
its own block. -/
theorem means_blockSignal (ls : List ℚ) (d w : ℕ) (hw2 : 2 ≤ w) (hw4 : w ≤ 4)
    (hwd : w ≤ d) (hm : ls ≠ []) :
    extract_event_means (blockSignal ls d)
      (0 :: ((List.range (ls.length - 1)).map fun u =>
          (u + 1) * d + 1 - w + w / 2) ++ [ls.length * d])
      = ls.map some := by
  have hm1 : 1 ≤ ls.length := by
    rcases Nat.eq_zero_or_pos ls.length with h | h
    · exact absurd (List.length_eq_zero.mp h) hm
    · exact h
  have hd : 0 < d := by omega
  set B := (List.range (ls.length - 1)).map fun u => (u + 1) * d + 1 - w + w / 2
    with hB
  set E := 0 :: B ++ [ls.length * d] with hEdef
  have hBlen : B.length = ls.length - 1 := by
    rw [hB, List.length_map, List.length_range]
  have hElen : E.length = ls.length + 1 := by
    rw [hEdef, List.length_append, List.length_cons, hBlen,
      List.length_singleton]
    omega
  have hEi : ∀ i, 1 ≤ i → i ≤ ls.length - 1 →
      E.getD i 0 = i * d + 1 - w + w / 2 := by
    intro i h1 h2
    obtain ⟨j, rfl⟩ : ∃ j, i = j + 1 := ⟨i - 1, by omega⟩
    rw [hEdef,
      List.getD_append _ _ _ _ (by rw [List.length_cons, hBlen]; omega),
      List.getD_cons_succ, hB, getD_map_range _ _ _ _ (by omega)]
  have hEm : E.getD ls.length 0 = ls.length * d := by
    rw [hEdef,
      List.getD_append_right _ _ _ _ (by rw [List.length_cons, hBlen]; omega)]
    have hz : ls.length - (0 :: B).length = 0 := by
      rw [List.length_cons, hBlen]
      omega
    rw [hz, List.getD_cons_zero]
  unfold extract_event_means
  rw [hElen, Nat.add_sub_cancel]
  have hbody : ∀ i ∈ List.range ls.length,
      (fun i =>
        npMean (pySlice (blockSignal ls d)
          (if i = 0 then 0 else E.getD i 0 + 1) (E.getD (i + 1) 0))) i
        = (fun i => some (ls.getD i 0)) i := by
    intro i hi
    rw [List.mem_range] at hi
    dsimp only
    have hId : d ≤ ls.length * d := Nat.le_mul_of_pos_left d (by omega)
    rcases Nat.eq_zero_or_pos i with h0 | h0
    · subst h0
      rw [if_pos rfl]
      by_cases hm2 : ls.length = 1
      · have he := hEm
        rw [hm2, one_mul] at he
        rw [he]
        rw [pySlice_blockSignal_const ls d 0 0 d hd (by omega) hId
          fun n h1 h2 => Nat.div_eq_of_lt h2]
        rw [Nat.sub_zero, npMean_replicate _ _ hd]
      · have he : E.getD 1 0 = 1 * d + 1 - w + w / 2 := hEi 1 le_rfl (by omega)
        rw [he]
        have hw2d : w / 2 + 1 ≤ w := by omega
        have he1 : 1 * d + 1 - w + w / 2 ≤ d := by omega
        rw [pySlice_blockSignal_const ls d 0 0 (1 * d + 1 - w + w / 2) hd
          (by omega) (by omega) fun n h1 h2 => Nat.div_eq_of_lt (by omega)]
        rw [Nat.sub_zero, npMean_replicate _ _ (by omega)]
    · rw [if_neg (by omega)]
      rw [hEi i h0 (by omega)]
      have hIdi : d ≤ i * d := Nat.le_mul_of_pos_left d (by omega)
      have hJ : (i + 1) * d = i * d + d := by ring
      have hkey : ∀ n, i * d + 1 - w + w / 2 + 1 ≤ n → n < (i + 1) * d →
          n / d = i := by
        intro n h1 h2
        apply Nat.div_eq_of_lt_le
        · calc i * d ≤ i * d + 1 - w + w / 2 + 1 := by omega
            _ ≤ n := h1
        · exact h2
      by_cases hlast : i + 1 = ls.length
      · have he : E.getD (i + 1) 0 = (i + 1) * d := by
          rw [hlast, hEm, ← hlast]
        rw [he]
        rw [pySlice_blockSignal_const ls d i _ _ hd (by omega)
          (by rw [hlast]) fun n h1 h2 => hkey n h1 h2]
        rw [npMean_replicate _ _ (by omega)]
      · have he : E.getD (i + 1) 0 = (i + 1) * d + 1 - w + w / 2 :=
          hEi (i + 1) (by omega) (by omega)
        rw [he]
        have hle : (i + 1) * d ≤ ls.length * d :=
          Nat.mul_le_mul_right d (by omega)
        rw [pySlice_blockSignal_const ls d i _ _ hd (by omega)
          (by omega) fun n h1 h2 => hkey n h1 (by omega)]
        rw [npMean_replicate _ _ (by omega)]
  rw [List.map_congr_left hbody, map_range_getD]

/-! ### The nearest-level decode step -/

theorem getD_map_of_lt {α β : Type} (f : α → β) (l : List α) (i : ℕ)
    (d0 : β) (da : α) (h : i < l.length) :
    (l.map f).getD i d0 = f (l.getD i da) := by
  rw [List.getD_eq_getElem _ _ (by simpa using h), List.getElem_map,
    List.getD_eq_getElem _ _ h]

theorem argminAux_of_le (l : List ℚ) (base : ℕ) (bv : ℚ)
    (h : ∀ x ∈ l, bv ≤ x) : ∀ idx, argminAux l idx bv base = base := by
  induction l with
  | nil => intro idx; rfl
  | cons a as ih =>
    intro idx
    rw [argminAux, if_neg (not_lt.mpr (h a (by simp)))]
    exact ih (fun x hx => h x (by simp [hx])) (idx + 1)

theorem argminAux_of_unique (l : List ℚ) :
    ∀ (j : ℕ), j < l.length → ∀ (idx base : ℕ) (bv : ℚ),
      l.getD j 0 < bv →
      (∀ i < l.length, i ≠ j → l.getD j 0 < l.getD i 0) →
      argminAux l idx bv base = idx + j := by
  induction l with
  | nil => intro j hj; simp at hj
  | cons a as ih =>
    intro j hj idx base bv hbv hmin
    cases j with
    | zero =>
      rw [List.getD_cons_zero] at hbv hmin
      rw [argminAux, if_pos hbv]
      rw [argminAux_of_le as idx a fun x hx => ?_]
      · omega
      · obtain ⟨i, hi, rfl⟩ := List.mem_iff_getElem.mp hx
        have := hmin (i + 1) (by simpa using Nat.succ_lt_succ hi) (by omega)
        rw [List.getD_cons_succ, List.getD_eq_getElem _ _ hi] at this
        exact this.le
    | succ j' =>
      have hj' : j' < as.length := by simpa using Nat.lt_of_succ_lt_succ hj
      rw [List.getD_cons_succ] at hbv hmin
      have hmin' : ∀ i < as.length, i ≠ j' → as.getD j' 0 < as.getD i 0 := by
        intro i hi hne
        have := hmin (i + 1) (by simpa using Nat.succ_lt_succ hi) (by omega)
        rwa [List.getD_cons_succ] at this
      have hva : as.getD j' 0 < a := by
        have := hmin 0 (by simp) (by omega)
        rwa [List.getD_cons_zero] at this
      rw [argminAux]
      by_cases hab : a < bv
      · rw [if_pos hab]
        have h := ih j' hj' (idx + 1) idx a hva hmin'
        omega
      · rw [if_neg hab]
        have h := ih j' hj' (idx + 1) base bv hbv hmin'
        omega

/-- `np.argmin` returns the index of a strict unique minimum. -/
theorem argmin_unique (l : List ℚ) (j : ℕ) (hj : j < l.length)
    (hmin : ∀ i < l.length, i ≠ j → l.getD j 0 < l.getD i 0) :
    argmin l = j := by
  cases l with
  | nil => simp at hj
  | cons a as =>
    cases j with
    | zero =>
      rw [argmin]
      rw [argminAux_of_le as 0 a fun x hx => ?_]
      obtain ⟨i, hi, rfl⟩ := List.mem_iff_getElem.mp hx
      have := hmin (i + 1) (by simpa using Nat.succ_lt_succ hi) (by omega)
      rw [List.getD_cons_zero, List.getD_cons_succ,
        List.getD_eq_getElem _ _ hi] at this
      exact this.le
    | succ j' =>
      have hj' : j' < as.length := by simpa using Nat.lt_of_succ_lt_succ hj
      have hva : as.getD j' 0 < a := by
        have := hmin 0 (by simp) (by omega)
        rwa [List.getD_cons_zero, List.getD_cons_succ] at this
      have hmin' : ∀ i < as.length, i ≠ j' → as.getD j' 0 < as.getD i 0 := by
        intro i hi hne
        have := hmin (i + 1) (by simpa using Nat.succ_lt_succ hi) (by omega)
        rwa [List.getD_cons_succ, List.getD_cons_succ] at this
      rw [argmin]
      have h := argminAux_of_unique as j' hj' 1 0 a hva hmin'
      omega

/-- Distinct nucleotides have distinct 2-bit codes. -/
theorem nucleotide_order_inj (c c' : Char) (hc : c ∈ nucleotides)
    (hc' : c' ∈ nucleotides) (hne : c ≠ c') :
    NUCLEOTIDE_ORDER c ≠ NUCLEOTIDE_ORDER c' := by
  fin_cases hc <;> fin_cases hc' <;> simp_all [NUCLEOTIDE_ORDER]

theorem nucleotide_order_lt (c : Char) (hc : c ∈ nucleotides) :
    NUCLEOTIDE_ORDER c < 4 := by
  fin_cases hc <;> simp [NUCLEOTIDE_ORDER]

/-- Pairwise-separated levels, read through `getD`, in either order. -/
theorem sep_getD (levels : List ℚ)
    (hsep : List.Pairwise (fun x y => hardThreshold < |x - y|) levels)
    (a b : ℕ) (ha : a < levels.length) (hb : b < levels.length) (hab : a ≠ b) :
    hardThreshold < |levels.getD a 0 - levels.getD b 0| := by
  rw [List.pairwise_iff_getElem] at hsep
  rcases Nat.lt_or_ge a b with h | h
  · have := hsep a b ha hb h
    rw [List.getD_eq_getElem _ _ ha, List.getD_eq_getElem _ _ hb]
    exact this
  · have hlt : b < a := by omega
    have := hsep b a hb ha hlt
    rw [List.getD_eq_getElem _ _ ha, List.getD_eq_getElem _ _ hb,
      abs_sub_comm]
    exact this

/-- The decode step inverts the level table: an exact event mean decodes to
the nucleotide it came from, because its distance is 0 and every other
distance exceeds the (positive) separation. -/
theorem decodeMean_levelOf (levels : List ℚ) (c : Char) (hc : c ∈ nucleotides)
    (hlen : levels.length = 4)
    (hsep : List.Pairwise (fun x y => hardThreshold < |x - y|) levels) :
    decodeMean kmer1_keys levels (levelOf levels c) = c := by
  have hth : (0 : ℚ) < hardThreshold := by norm_num [hardThreshold]
  have hidx : NUCLEOTIDE_ORDER c < levels.length :=
    hlen ▸ nucleotide_order_lt c hc
  have hargmin : argmin (levels.map fun lv =>
      euclidian_distance (levelOf levels c) lv) = NUCLEOTIDE_ORDER c := by
    apply argmin_unique
    · simpa using hidx
    · intro i hi hne
      rw [List.length_map] at hi
      rw [getD_map_of_lt _ _ _ _ 0 hidx, getD_map_of_lt _ _ _ _ 0 hi]
      unfold euclidian_distance levelOf
      rw [sub_self, abs_zero]
      have := sep_getD levels hsep (NUCLEOTIDE_ORDER c) i hidx hi
        (fun hcon => hne hcon.symm)
      calc (0 : ℚ) < hardThreshold := hth
        _ < |levels.getD (NUCLEOTIDE_ORDER c) 0 - levels.getD i 0| := this
        _ = _ := by rw [abs_sub_comm]
  unfold decodeMean
  simp only [hargmin]
  fin_cases hc <;> rfl

theorem decodeMeans_map_levelOf (levels : List ℚ) (seq : List Char)
    (hnuc : ∀ c ∈ seq, c ∈ nucleotides) (hlen : levels.length = 4)
    (hsep : List.Pairwise (fun x y => hardThreshold < |x - y|) levels) :
    decodeMeans kmer1_keys levels (seq.map (levelOf levels)) = seq := by
  unfold decodeMeans
  rw [List.map_map]
  have : ∀ c ∈ seq, (decodeMean kmer1_keys levels ∘ levelOf levels) c
      = id c := by
    intro c hc
    exact decodeMean_levelOf levels c (hnuc c hc) hlen hsep
  rw [List.map_congr_left this, List.map_id]

theorem mapM_id_map_some {α : Type} (l : List α) :
    (l.map some).mapM (id : Option α → Option α) = some l := by
  induction l with
  | nil => rfl
  | cons a t ih => rw [List.map_cons, List.mapM_cons, ih]; rfl

theorem editDistance_self (s : List Char) : editDistance s s = 0 := by
  induction s with
  | nil => simp [editDistance]
  | cons a l ih => simp [editDistance, ih]

/-- C1, amended: exact end-to-end reconstruction holds under the stronger
hypotheses the code forces: `k = 1` (the decoder emits only each k-mer's
first symbol, so for `k ≥ 2` the last `k-1` symbols are lost), no two
*consecutive* symbols equal (a repeated symbol produces no transition),
levels pairwise separated by more than the hard-coded `0.03` (not merely
distinct), and `2 ≤ w ≤ 4` with `w ≤ d` (for `w ≥ 5` an averaging span
leaks into the previous block).  Then decoding the clean fixed-dwell signal
with the same table returns the sequence itself, and its accuracy is 1. -/
theorem C1_amended (seq : List Char) (levels : List ℚ) (d w : ℕ) (t : ℚ)
    (hseq : seq ≠ []) (hnuc : ∀ c ∈ seq, c ∈ nucleotides)
    (hadj : List.Chain' (· ≠ ·) seq) (hlen : levels.length = 4)
    (hsep : List.Pairwise (fun x y => hardThreshold < |x - y|) levels)
    (hw2 : 2 ≤ w) (hw4 : w ≤ 4) (hwd : w ≤ d) :
    decodeEvents kmer1_keys levels
        (extract_event_means
          (addNoise (generate_signal levels 1 (fun _ => d) seq).1
            (NOISE_clean (generate_signal levels 1 (fun _ => d) seq).1))
          (transition_detector
            (addNoise (generate_signal levels 1 (fun _ => d) seq).1
              (NOISE_clean (generate_signal levels 1 (fun _ => d) seq).1))
            w t).1) = some seq
      ∧ accuracy seq seq = 1 := by
  have hS : addNoise (generate_signal levels 1 (fun _ => d) seq).1
      (NOISE_clean (generate_signal levels 1 (fun _ => d) seq).1)
      = blockSignal (seq.map (levelOf levels)) d := by
    rw [addNoise_clean, generate_signal_fst_k1]
  have hlsne : seq.map (levelOf levels) ≠ [] := by
    intro hcon
    exact hseq (List.map_eq_nil_iff.mp hcon)
  have hgap : ∀ u, u + 1 < (seq.map (levelOf levels)).length →
      hardThreshold < |(seq.map (levelOf levels)).getD (u + 1) 0
        - (seq.map (levelOf levels)).getD u 0| := by
    intro u hu
    rw [List.length_map] at hu
    rw [getD_map_of_lt _ _ _ _ 'A' hu, getD_map_of_lt _ _ _ _ 'A' (by omega)]
    have hmemu : seq.getD u 'A' ∈ seq := by
      rw [List.getD_eq_getElem _ _ (by omega)]
      exact List.getElem_mem _
    have hmemu1 : seq.getD (u + 1) 'A' ∈ seq := by
      rw [List.getD_eq_getElem _ _ hu]
      exact List.getElem_mem _
    have hne : seq.getD u 'A' ≠ seq.getD (u + 1) 'A' := by
      have hchain := List.chain'_iff_get.mp hadj u (by omega)
      rw [List.getD_eq_getElem _ _ (by omega), List.getD_eq_getElem _ _ hu]
      simpa [List.get_eq_getElem] using hchain
    unfold levelOf
    exact sep_getD levels hsep _ _
      (hlen ▸ nucleotide_order_lt _ (hnuc _ hmemu1))
      (hlen ▸ nucleotide_order_lt _ (hnuc _ hmemu))
      (nucleotide_order_inj _ _ (hnuc _ hmemu1) (hnuc _ hmemu) (Ne.symm hne))
  have hevents := events_blockSignal (seq.map (levelOf levels)) d w t hw2 hwd
    hlsne hgap
  have hmeans := means_blockSignal (seq.map (levelOf levels)) d w hw2 hw4 hwd
    hlsne
  constructor
  · rw [hS, hevents, hmeans]
    unfold decodeEvents
    rw [mapM_id_map_some]
    simp only [Option.map_some']
    rw [decodeMeans_map_levelOf levels seq hnuc hlen hsep]
  · rw [accuracy, editDistance_self]
    simp

/-- C1, counterexample: the claim's hypotheses hold for the known sequence
`"AA"` with `k = 1`, the `even_space` k=1 table `[0, 1/4, 1/2, 3/4]`
(pairwise distinct levels), clean noise, and fixed dwell `3 ≥ w = 2` — yet
the repeated k-mer produces no signal transition, the segmenter finds a
single event, the decoder returns `"A"`, and the accuracy is
`1 - 1/2 ≠ 1.0`. -/
theorem C1_counterexample :
    decodeEvents kmer1_keys [0, 1 / 4, 1 / 2, 3 / 4]
        (extract_event_means
          (addNoise
            (generate_signal [0, 1 / 4, 1 / 2, 3 / 4] 1 (fun _ => 3)
              ['A', 'A']).1
            (NOISE_clean
              (generate_signal [0, 1 / 4, 1 / 2, 3 / 4] 1 (fun _ => 3)
                ['A', 'A']).1))
          (transition_detector
            (addNoise
              (generate_signal [0, 1 / 4, 1 / 2, 3 / 4] 1 (fun _ => 3)
                ['A', 'A']).1
              (NOISE_clean
                (generate_signal [0, 1 / 4, 1 / 2, 3 / 4] 1 (fun _ => 3)
                  ['A', 'A']).1))
            2 (3 / 100)).1) = some ['A']
      ∧ accuracy ['A'] ['A', 'A'] ≠ 1 := by
  have hg : (generate_signal [0, 1 / 4, 1 / 2, 3 / 4] 1 (fun _ => 3)
      ['A', 'A']).1 = [0, 0, 0, 0, 0, 0] := by
    simp [generate_signal, generateStep, pySliceC, kmer_index,
      NUCLEOTIDE_ORDER, List.range_succ, List.replicate, List.getD]
  have ht : (transition_detector [0, 0, 0, 0, 0, 0] 2 (3 / 100)).1
      = [0, 6] := by
    norm_num [transition_detector, detectedIndices, sigRanges, prevRange,
      hardThreshold, pySlice, listMax, listMin, List.range_succ, List.getD,
      List.getLastD]
  have hmn : extract_event_means [0, 0, 0, 0, 0, 0] [0, 6] = [some 0] := by
    norm_num [extract_event_means, npMean, pySlice, List.range_succ,
      List.getD]
  have hdec : decodeEvents kmer1_keys [0, 1 / 4, 1 / 2, 3 / 4] [some 0]
      = some ['A'] := by
    have h : ([some (0 : ℚ)]).mapM (id : Option ℚ → Option ℚ)
        = some [0] := by
      rw [show [some (0 : ℚ)] = [(0 : ℚ)].map some from rfl]
      exact mapM_id_map_some _
    unfold decodeEvents
    rw [h]
    norm_num [decodeMeans, decodeMean, argmin, argminAux,
      euclidian_distance, kmer1_keys, abs]
  constructor
  · rw [hg, addNoise_clean, ht, hmn, hdec]
  · norm_num [accuracy, editDistance]

/-- C1, witness for the amended theorem: the sequence `"AC"`, the
`even_space` k=1 table, dwell 3 and window 2 decode back to `"AC"` with
accuracy 1. -/
theorem C1_witness :
    decodeEvents kmer1_keys [0, 1 / 4, 1 / 2, 3 / 4]
        (extract_event_means
          (addNoise
            (generate_signal [0, 1 / 4, 1 / 2, 3 / 4] 1 (fun _ => 3)
              ['A', 'C']).1
            (NOISE_clean
              (generate_signal [0, 1 / 4, 1 / 2, 3 / 4] 1 (fun _ => 3)
                ['A', 'C']).1))
          (transition_detector
            (addNoise
              (generate_signal [0, 1 / 4, 1 / 2, 3 / 4] 1 (fun _ => 3)
                ['A', 'C']).1
              (NOISE_clean
                (generate_signal [0, 1 / 4, 1 / 2, 3 / 4] 1 (fun _ => 3)
                  ['A', 'C']).1))
            2 (3 / 100)).1) = some ['A', 'C']
      ∧ accuracy ['A', 'C'] ['A', 'C'] = 1 :=
  C1_amended ['A', 'C'] [0, 1 / 4, 1 / 2, 3 / 4] 3 2 (3 / 100)
    (by simp) (by decide) (by simp [List.chain'_cons]) rfl
    (by norm_num [List.pairwise_cons, hardThreshold, abs_of_nonneg])
    (by norm_num) (by norm_num) (by norm_num)

end TrainingCourse

